import Mathlib

/-!
Verification of the MHGI backend (free-float market-cap weighted index,
divisor method).  The definitions below are a shallow embedding of the
Python sources:

* `index_engine.py`  — `IndexEngine` state, base-divisor calibration,
  the daily EOD calculation, divisor adjustment, historical backfill,
  config reload;
* `data_fetcher.py`  — incremental historical fetch per ticker;
* `database.py`      — idempotent insertion of price bars;
* `scheduler.py`     — the once-per-day trigger state machine.

Real numbers are modelled as `ℚ`; calendar dates as `ℕ` (ISO date
strings compare lexicographically, which agrees with the numeric
order); Python `None` as `Option`.  Python's `round(x, n)` rounds
half-to-even, which `roundHalfEven` reproduces.
-/

attribute [local semireducible] Rat.add Rat.mul Rat.inv Rat.sub

/-- One row of the quote map returned by `fetch_current_prices`. -/
structure PriceQuote where
  price : ℚ
  change_percent : ℚ
  volume : ℤ
deriving DecidableEq

/-- Per-ticker entry of `config["constituents"]`; `none` fields model
missing dict keys (the code reads them with `.get` and a default). -/
structure ConstituentCfg where
  name : Option String := none
  sector : Option String := none
  free_float_factor : Option ℚ := none
deriving DecidableEq

/-- `models.ConstituentInfo` (pydantic model built by the EOD loop). -/
structure ConstituentInfo where
  ticker : String
  name : String
  sector : String
  price : ℚ
  change_percent : ℚ
  market_cap : ℚ
  free_float_market_cap : ℚ
  free_float_factor : ℚ
  weight : ℚ
  shares_outstanding : ℚ
  volume : ℤ
deriving DecidableEq

/-- `models.IndexValue` (wall-clock timestamp omitted). -/
structure IndexValueData where
  value : ℚ
  change : ℚ
  change_percent : ℚ
  high : ℚ
  low : ℚ
  open_ : ℚ
  previous_close : ℚ
  total_market_cap : ℚ
  total_free_float_market_cap : ℚ
deriving DecidableEq

/-- `models.IndexSnapshot`. -/
structure IndexSnapshot where
  index : IndexValueData
  constituents : List ConstituentInfo
deriving DecidableEq

/-- An entry of `self.index_history` as built by `calculate_eod_index`
and `build_historical_index` (iso-timestamp and unix-time fields
omitted; they duplicate `date`). -/
structure HistoryEntry where
  date : ℕ
  value : ℚ
  open_ : ℚ
  high : ℚ
  low : ℚ
  close : ℚ
  previous_close : ℚ
  change : ℚ
  change_percent : ℚ
  ff_mcap_sum : ℚ
  total_mcap : ℚ
  divisor : ℚ
  num_constituents : ℕ
deriving DecidableEq

/-- The mutable state of `IndexEngine` (`__init__`).  `constituents`
is the `config["constituents"]` dict as an association list;
`stocks_info` maps a ticker to its cached `shares_outstanding`. -/
structure IndexEngine where
  constituents : List (String × ConstituentCfg)
  base_value : ℚ
  base_date : ℕ
  divisor : Option ℚ
  index_history : List HistoryEntry
  last_snapshot : Option IndexSnapshot
  stocks_info : List (String × ℚ)
  last_ff_mcap_sum : Option ℚ
deriving DecidableEq

/-- A freshly loaded `constituents.json` (`_load_config`).  On
`reload_config` only the constituent dict is re-read into the engine;
the `base_value`/`base_date` attributes set in `__init__` are not
refreshed, which the embedding mirrors by ignoring those fields. -/
structure EngineConfig where
  constituents : List (String × ConstituentCfg)
  base_value : ℚ := 1000
  base_date : ℕ := 0
deriving DecidableEq

/-- Python `round(x)` to an integer: round half to even. -/
def roundHalfEven (x : ℚ) : ℤ :=
  let f := x.floor
  let frac := x - f
  if frac < 1/2 then f
  else if 1/2 < frac then f + 1
  else if f % 2 = 0 then f else f + 1

/-- Python `round(x, 2)`. -/
def round2 (x : ℚ) : ℚ := (roundHalfEven (x * 100) : ℚ) / 100

/-- Python `round(x, 4)`. -/
def round4 (x : ℚ) : ℚ := (roundHalfEven (x * 10000) : ℚ) / 10000

/-- Python `round(x, 0)`. -/
def round0 (x : ℚ) : ℚ := (roundHalfEven x : ℚ)

/-- `IndexEngine._get_shares`: cached shares outstanding with the
1,000,000,000 fallback when the cache is missing or holds zero. -/
def getShares (s : IndexEngine) (ticker : String) : ℚ :=
  let shares := match s.stocks_info.lookup ticker with
    | some sh => sh
    | none => 0
  if shares = 0 then 1000000000 else shares

/-- `config.get("free_float_factor", 0.5)`. -/
def ffFactorOf (cfg : ConstituentCfg) : ℚ := cfg.free_float_factor.getD (1/2)

/-- The divisor actually used by the EOD division, after the defensive
re-initialization at the top of the division site:
`if self.divisor is None or self.divisor == 0:
   self.divisor = total_ff_mcap / self.base_value if total_ff_mcap > 0 else 1.0`. -/
def effectiveDivisor (divisor : Option ℚ) (base_value total_ff_mcap : ℚ) : ℚ :=
  match divisor with
  | none => if 0 < total_ff_mcap then total_ff_mcap / base_value else 1
  | some d =>
    if d = 0 then (if 0 < total_ff_mcap then total_ff_mcap / base_value else 1) else d

lemma effectiveDivisor_none (bv t : ℚ) :
    effectiveDivisor none bv t = if 0 < t then t / bv else 1 := rfl

lemma effectiveDivisor_some (d bv t : ℚ) :
    effectiveDivisor (some d) bv t
      = if d = 0 then (if 0 < t then t / bv else 1) else d := rfl

/-- `index_value = total_ff_mcap / self.divisor` as computed by
`calculate_eod_index` for a given engine state and free-float sum
(including the defensive divisor re-initialization that precedes it). -/
def recomputedIndexValue (s : IndexEngine) (total_ff_mcap : ℚ) : ℚ :=
  total_ff_mcap / effectiveDivisor s.divisor s.base_value total_ff_mcap

/-- The per-constituent rows assembled by the EOD loop: a ticker
contributes iff it is a constituent and the quote map has it
(`if ticker not in prices: continue`).  Weight is filled in later. -/
def eodConstituentRows (s : IndexEngine) (prices : List (String × PriceQuote)) :
    List ConstituentInfo :=
  s.constituents.filterMap (fun tc =>
    match prices.lookup tc.1 with
    | none => none
    | some q =>
      let ff := ffFactorOf tc.2
      let shares := getShares s tc.1
      let mcap := q.price * shares
      some { ticker := tc.1,
             name := tc.2.name.getD tc.1,
             sector := tc.2.sector.getD "Unknown",
             price := q.price,
             change_percent := q.change_percent,
             market_cap := mcap,
             free_float_market_cap := mcap * ff,
             free_float_factor := ff,
             weight := 0,
             shares_outstanding := shares,
             volume := q.volume })

/-- `total_ff_mcap` accumulated by the EOD loop. -/
def eodTotalFfMcap (s : IndexEngine) (prices : List (String × PriceQuote)) : ℚ :=
  ((eodConstituentRows s prices).map (·.free_float_market_cap)).sum

/-- `total_mcap` accumulated by the EOD loop. -/
def eodTotalMcap (s : IndexEngine) (prices : List (String × PriceQuote)) : ℚ :=
  ((eodConstituentRows s prices).map (·.market_cap)).sum

/-- Replace the first entry with the given date (helper for
`overwriteLastByDate`). -/
def setFirstByDate (d : ℕ) (e : HistoryEntry) : List HistoryEntry → List HistoryEntry
  | [] => []
  | h :: t => if h.date = d then e :: t else h :: setFirstByDate d e t

/-- `self.index_history[existing_today[-1]] = history_entry`: overwrite
the last entry carrying the given date (leave the list unchanged when
no entry has it). -/
def overwriteLastByDate (l : List HistoryEntry) (d : ℕ) (e : HistoryEntry) :
    List HistoryEntry :=
  (setFirstByDate d e l.reverse).reverse

/-- The divisor in effect for the EOD division (after the defensive
re-initialization of `self.divisor`). -/
def eodDivisor (s : IndexEngine) (prices : List (String × PriceQuote)) : ℚ :=
  effectiveDivisor s.divisor s.base_value (eodTotalFfMcap s prices)

/-- `index_value = total_ff_mcap / self.divisor`. -/
def eodIndexValue (s : IndexEngine) (prices : List (String × PriceQuote)) : ℚ :=
  eodTotalFfMcap s prices / eodDivisor s prices

/-- `prev_value`: the close of the latest ledger entry, or the base
value when the ledger is empty. -/
def eodPrevValue (s : IndexEngine) : ℚ :=
  match s.index_history.getLast? with
  | some e => e.close
  | none => s.base_value

/-- `change = index_value - prev_value`. -/
def eodChange (s : IndexEngine) (prices : List (String × PriceQuote)) : ℚ :=
  eodIndexValue s prices - eodPrevValue s

/-- `change_pct`, guarded against a non-positive previous close. -/
def eodChangePct (s : IndexEngine) (prices : List (String × PriceQuote)) : ℚ :=
  if 0 < eodPrevValue s then eodChange s prices / eodPrevValue s * 100 else 0

/-- The constituent rows with their weights filled in. -/
def eodWeighted (s : IndexEngine) (prices : List (String × PriceQuote)) :
    List ConstituentInfo :=
  (eodConstituentRows s prices).map (fun r =>
    { r with weight :=
        round4 (if 0 < eodTotalFfMcap s prices
                then r.free_float_market_cap / eodTotalFfMcap s prices * 100 else 0) })

/-- The snapshot published by a successful EOD cycle. -/
def eodSnapshot (s : IndexEngine) (prices : List (String × PriceQuote)) :
    IndexSnapshot :=
  { index :=
      { value := round2 (eodIndexValue s prices),
        change := round2 (eodChange s prices),
        change_percent := round4 (eodChangePct s prices),
        high := round2 (eodIndexValue s prices),
        low := round2 (eodIndexValue s prices),
        open_ := round2 (eodIndexValue s prices),
        previous_close := round2 (eodPrevValue s),
        total_market_cap := round0 (eodTotalMcap s prices),
        total_free_float_market_cap := round0 (eodTotalFfMcap s prices) },
    constituents := eodWeighted s prices }

/-- The ledger entry written by a successful EOD cycle. -/
def eodEntry (s : IndexEngine) (prices : List (String × PriceQuote))
    (today : ℕ) : HistoryEntry :=
  { date := today,
    value := round2 (eodIndexValue s prices),
    open_ := round2 (eodIndexValue s prices),
    high := round2 (eodIndexValue s prices),
    low := round2 (eodIndexValue s prices),
    close := round2 (eodIndexValue s prices),
    previous_close := round2 (eodPrevValue s),
    change := round2 (eodChange s prices),
    change_percent := round4 (eodChangePct s prices),
    ff_mcap_sum := eodTotalFfMcap s prices,
    total_mcap := eodTotalMcap s prices,
    divisor := eodDivisor s prices,
    num_constituents := (eodConstituentRows s prices).length }

/-- The updated ledger: overwrite the entry already carrying today's
date (same-day recalculation) or append a fresh one. -/
def eodNewHistory (s : IndexEngine) (prices : List (String × PriceQuote))
    (today : ℕ) : List HistoryEntry :=
  if s.index_history.any (fun h => h.date = today)
  then overwriteLastByDate s.index_history today (eodEntry s prices today)
  else s.index_history ++ [eodEntry s prices today]

/-- `IndexEngine.calculate_eod_index`, given the quote map returned by
the fetcher and today's calendar date.  Returns the new engine state
and the Python return value. -/
def calculate_eod_index (s : IndexEngine) (prices : List (String × PriceQuote))
    (today : ℕ) : IndexEngine × Option IndexSnapshot :=
  if prices.isEmpty then (s, s.last_snapshot)
  else if (eodConstituentRows s prices).isEmpty then (s, s.last_snapshot)
  else
    ({ s with divisor := some (eodDivisor s prices),
              last_snapshot := some (eodSnapshot s prices),
              last_ff_mcap_sum := some (eodTotalFfMcap s prices),
              index_history := eodNewHistory s prices today },
     some (eodSnapshot s prices))

/-- The whole body of `calculate_eod_index` runs inside
`try: ... except Exception: return self.last_snapshot`.  The only
fallible statement before any state mutation is the price fetch (the
later persistence calls swallow their own exceptions internally), so a
raised exception is modelled as `Except.error`: the handler returns
`self.last_snapshot` with the state untouched. -/
def calculate_eod_run (s : IndexEngine)
    (fetch : Except Unit (List (String × PriceQuote))) (today : ℕ) :
    IndexEngine × Option IndexSnapshot :=
  match fetch with
  | .error _ => (s, s.last_snapshot)
  | .ok prices => calculate_eod_index s prices today

/-- `IndexEngine.adjust_divisor_for_constituent_change`. -/
def adjust_divisor_for_constituent_change (s : IndexEngine)
    (old_ff_mcap_sum new_ff_mcap_sum : ℚ) : IndexEngine :=
  match s.divisor with
  | none => s
  | some d =>
    if old_ff_mcap_sum = 0 then s
    else { s with divisor := some (d * (new_ff_mcap_sum / old_ff_mcap_sum)) }

/-- `IndexEngine.reload_config`: re-reads the config file into
`self.config` (the ticker diff is only logged; no divisor change). -/
def reload_config (s : IndexEngine) (newConfig : EngineConfig) : IndexEngine :=
  { s with constituents := newConfig.constituents }

/-- The base price chosen by `_calculate_base_divisor` for one ticker:
the close on the base date if present, else the positionally last bar
on or before it, else the first bar of the series. -/
def basePrice (series : List (ℕ × ℚ)) (base : ℕ) : Option ℚ :=
  match series.find? (fun p => p.1 = base) with
  | some p => some p.2
  | none =>
    match (series.filter (fun p => p.1 ≤ base)).getLast? with
    | some p => some p.2
    | none => series.head?.map (·.2)

/-- `base_ff_mcap_sum` accumulated by `_calculate_base_divisor`;
tickers with no historical series (or an empty one) are skipped. -/
def baseFfMcapSum (s : IndexEngine) (historical : List (String × List (ℕ × ℚ))) : ℚ :=
  s.constituents.foldl (fun acc tc =>
    match historical.lookup tc.1 with
    | none => acc
    | some series =>
      if series.isEmpty then acc
      else match basePrice series s.base_date with
        | none => acc
        | some price => acc + price * getShares s tc.1 * ffFactorOf tc.2) 0

/-- `IndexEngine._calculate_base_divisor` given the per-ticker
historical series (date, close). -/
def calculate_base_divisor (s : IndexEngine)
    (historical : List (String × List (ℕ × ℚ))) : IndexEngine :=
  let base_sum := baseFfMcapSum s historical
  let d := if 0 < base_sum then base_sum / s.base_value else 1
  { s with divisor := some d, last_ff_mcap_sum := some base_sum }

/-- Some constituent has a bar with a positive close on or before the
base date (the hypothesis of the base-calibration claim). -/
def hasPositiveBasePrice (s : IndexEngine)
    (historical : List (String × List (ℕ × ℚ))) : Bool :=
  s.constituents.any (fun tc =>
    match historical.lookup tc.1 with
    | none => false
    | some series => series.any (fun p => p.1 ≤ s.base_date && 0 < p.2))

/-- The last known price on or before `dt` used by the historical
backfill: the bar at `dt` if present, else the positionally last bar
with date `≤ dt`, else no price (the ticker is skipped that day). -/
def priceAt (series : List (ℕ × ℚ)) (dt : ℕ) : Option ℚ :=
  match series.find? (fun p => p.1 = dt) with
  | some p => some p.2
  | none => ((series.filter (fun p => p.1 ≤ dt)).getLast?).map (·.2)

/-- The per-date accumulation of `build_historical_index`:
(total_ff_mcap, total_mcap, valid_count). -/
def backfillTotals (s : IndexEngine) (historical : List (String × List (ℕ × ℚ)))
    (dt : ℕ) : ℚ × ℚ × ℕ :=
  s.constituents.foldl (fun acc tc =>
    match historical.lookup tc.1 with
    | none => acc
    | some df =>
      match priceAt df dt with
      | none => acc
      | some price =>
        let mcap := price * getShares s tc.1
        (acc.1 + mcap * ffFactorOf tc.2, acc.2.1 + mcap, acc.2.2 + 1)) (0, 0, 0)

/-- The working divisor on one backfill date: established from the
date's free-float sum when still unset (`if divisor is None`). -/
def backfillDiv (s : IndexEngine) (historical : List (String × List (ℕ × ℚ)))
    (dt : ℕ) (divisor : Option ℚ) : ℚ :=
  match divisor with
  | none => (backfillTotals s historical dt).1 / s.base_value
  | some d0 => d0

/-- `index_val = total_ff_mcap / divisor` on one backfill date. -/
def backfillIndexVal (s : IndexEngine) (historical : List (String × List (ℕ × ℚ)))
    (dt : ℕ) (divisor : Option ℚ) : ℚ :=
  (backfillTotals s historical dt).1 / backfillDiv s historical dt divisor

/-- The ledger entry built for one backfill date. -/
def backfillEntry (s : IndexEngine) (historical : List (String × List (ℕ × ℚ)))
    (dt : ℕ) (divisor : Option ℚ) (prev : ℚ) : HistoryEntry :=
  { date := dt,
    value := round2 (backfillIndexVal s historical dt divisor),
    open_ := round2 (backfillIndexVal s historical dt divisor),
    high := round2 (backfillIndexVal s historical dt divisor),
    low := round2 (backfillIndexVal s historical dt divisor),
    close := round2 (backfillIndexVal s historical dt divisor),
    previous_close := round2 prev,
    change := round2 (backfillIndexVal s historical dt divisor - prev),
    change_percent := round4 (if 0 < prev
      then (backfillIndexVal s historical dt divisor - prev) / prev * 100 else 0),
    ff_mcap_sum := (backfillTotals s historical dt).1,
    total_mcap := (backfillTotals s historical dt).2.1,
    divisor := backfillDiv s historical dt divisor,
    num_constituents := (backfillTotals s historical dt).2.2 }

/-- The date loop of `build_historical_index`: walks the dates to
calculate, carrying the local `divisor`, the engine divisor written
back by the establish branch, and `prev_value`; returns the new
entries plus the final engine divisor.  Dates where no constituent has
a price (`valid_count == 0`) are skipped. -/
def backfillEntries (s : IndexEngine) (historical : List (String × List (ℕ × ℚ))) :
    List ℕ → Option ℚ → Option ℚ → ℚ → List HistoryEntry × Option ℚ
  | [], _, selfDiv, _ => ([], selfDiv)
  | dt :: rest, divisor, selfDiv, prev =>
    if (backfillTotals s historical dt).2.2 = 0 then
      backfillEntries s historical rest divisor selfDiv prev
    else
      (backfillEntry s historical dt divisor prev ::
        (backfillEntries s historical rest (some (backfillDiv s historical dt divisor))
          (match divisor with
           | none => some (backfillDiv s historical dt divisor)
           | some _ => selfDiv)
          (backfillIndexVal s historical dt divisor)).1,
       (backfillEntries s historical rest (some (backfillDiv s historical dt divisor))
          (match divisor with
           | none => some (backfillDiv s historical dt divisor)
           | some _ => selfDiv)
          (backfillIndexVal s historical dt divisor)).2)

/-- The relation ordering ledger entries by date used by the final
`result.sort(key=lambda x: x["date"])`. -/
def entryDateLe (a b : HistoryEntry) : Prop := a.date ≤ b.date

instance : DecidableRel entryDateLe := fun a b => Nat.decLe a.date b.date

instance : IsTotal HistoryEntry entryDateLe := ⟨fun a b => Nat.le_total a.date b.date⟩

instance : IsTrans HistoryEntry entryDateLe := ⟨fun _ _ _ => Nat.le_trans⟩

/-- `last_date >= today`: the ledger's last entry already covers
today, so the backfill returns immediately. -/
def historyUpToDate (s : IndexEngine) (today : ℕ) : Bool :=
  match s.index_history.getLast? with
  | some e => decide (today ≤ e.date)
  | none => false

/-- `all_dates`: the sorted set of trading dates present in any
constituent's series, restricted to the base date onward. -/
def backfillAllDates (s : IndexEngine)
    (historical : List (String × List (ℕ × ℚ))) : List ℕ :=
  (((historical.map (fun p => p.2.map (·.1))).flatten).dedup.insertionSort
      (· ≤ ·)).filter (fun d => s.base_date ≤ d)

/-- `dates_to_calculate`: the dates not already present in the ledger. -/
def backfillNewDates (s : IndexEngine)
    (historical : List (String × List (ℕ × ℚ))) : List ℕ :=
  (backfillAllDates s historical).filter
    (fun d => ¬ d ∈ s.index_history.map (·.date))

/-- The `(divisor, prev_value)` seed of the date loop, recovered from
the ledger's last entry when one exists. -/
def backfillStart (s : IndexEngine) : Option ℚ × ℚ :=
  match s.index_history.getLast? with
  | some e => (some e.divisor, e.close)
  | none => (s.divisor, s.base_value)

/-- `dates_to_calculate if result else all_dates` (the two agree when
the ledger is empty, since then no date is filtered out). -/
def backfillLoopDates (s : IndexEngine)
    (historical : List (String × List (ℕ × ℚ))) : List ℕ :=
  if s.index_history.isEmpty then backfillAllDates s historical
  else backfillNewDates s historical

/-- The full date loop of one backfill run. -/
def backfillRun (s : IndexEngine) (historical : List (String × List (ℕ × ℚ))) :
    List HistoryEntry × Option ℚ :=
  backfillEntries s historical (backfillLoopDates s historical)
    (backfillStart s).1 s.divisor (backfillStart s).2

/-- `result.extend(new_entries); result.sort(key=lambda x: x["date"])`. -/
def backfillResultLedger (s : IndexEngine)
    (historical : List (String × List (ℕ × ℚ))) : List HistoryEntry :=
  List.insertionSort entryDateLe (s.index_history ++ (backfillRun s historical).1)

/-- `IndexEngine.build_historical_index` given the per-ticker
historical series (date, close) and today's date.  Returns the new
engine state (the Python return value is the resulting ledger). -/
def build_historical_index (s : IndexEngine)
    (historical : List (String × List (ℕ × ℚ))) (today : ℕ) : IndexEngine :=
  if historyUpToDate s today then s
  else if historical.isEmpty then s
  else if (backfillAllDates s historical).isEmpty then s
  else if (backfillNewDates s historical).isEmpty ∧ ¬ s.index_history.isEmpty then s
  else if (backfillRun s historical).1.isEmpty then
    { s with divisor := (backfillRun s historical).2 }
  else
    { s with index_history := backfillResultLedger s historical,
             divisor := (backfillRun s historical).2 }

/-- One serialized mutation of the engine: a daily EOD calculation
(with the quote map the fetcher returned and that day's date) or a
historical backfill (with the provider's series and that day's date). -/
inductive EngineOp where
  | eod (prices : List (String × PriceQuote)) (today : ℕ)
  | backfill (historical : List (String × List (ℕ × ℚ))) (today : ℕ)

/-- The calendar date at which an operation runs. -/
def EngineOp.day : EngineOp → ℕ
  | .eod _ today => today
  | .backfill _ today => today

/-- Interface assumption on the market-data collaborator: bars it
returns are never dated after the day of the call. -/
def EngineOp.datesOk : EngineOp → Bool
  | .eod _ _ => true
  | .backfill historical today =>
    historical.all (fun p => p.2.all (fun b => b.1 ≤ today))

/-- Apply one operation to the engine state. -/
def applyOp (s : IndexEngine) : EngineOp → IndexEngine
  | .eod prices today => (calculate_eod_index s prices today).1
  | .backfill historical today => build_historical_index s historical today

/-- Apply a sequence of operations. -/
def runOps (s : IndexEngine) : List EngineOp → IndexEngine
  | [] => s
  | op :: rest => runOps (applyOp s op) rest

/-- The wall clock only moves forward: each operation runs no earlier
than the previous one (starting from clock `c`), and each backfill's
provider data satisfies `datesOk`. -/
def clockOk : ℕ → List EngineOp → Bool
  | _, [] => true
  | c, op :: rest => decide (c ≤ op.day) && op.datesOk && clockOk op.day rest

/-- The ledger invariant: entries strictly ascending by date (hence at
most one entry per date), and no entry dated after the clock. -/
def ledgerOk (c : ℕ) (l : List HistoryEntry) : Prop :=
  l.Pairwise (fun a b => a.date < b.date) ∧ ∀ e ∈ l, e.date ≤ c

/- ─────────── Historical Synchronizer (`data_fetcher.py`) ─────────── -/

/-- `combined[~combined.index.duplicated(keep="last")]`: keep, in
positional order, only the last occurrence of each date. -/
def dedupKeepLast : List (ℕ × ℚ) → List (ℕ × ℚ)
  | [] => []
  | p :: rest =>
    if rest.any (fun q => q.1 = p.1) then dedupKeepLast rest
    else p :: dedupKeepLast rest

/-- The pair ordering by date used by `combined.sort_index()`. -/
def barDateLe (a b : ℕ × ℚ) : Prop := a.1 ≤ b.1

instance : DecidableRel barDateLe := fun a b => Nat.decLe a.1 b.1

/-- Result of `fetch_historical_incremental` for one ticker:
`requests` records each `(start, end)` range requested from the
provider, `full_fetch` whether the unbounded full-history download ran,
`series` the ticker's entry in the returned dict (absent when no data
was available). -/
structure FetchOutcome where
  requests : List (ℕ × ℕ)
  full_fetch : Bool
  series : Option (List (ℕ × ℚ))
deriving DecidableEq

/-- The per-ticker body of `DataFetcher.fetch_historical_incremental`:
`last_date` is the last stored date from the store, `existing` the
stored bars from the base date on (loaded only when `last_date` is
set), `provider` the ranged download, `full` the unbounded download,
`today` the current date. -/
def fetch_historical_incremental_ticker (last_date : Option ℕ)
    (existing : List (ℕ × ℚ)) (provider : ℕ → ℕ → List (ℕ × ℚ))
    (full : List (ℕ × ℚ)) (today : ℕ) : FetchOutcome :=
  match last_date with
  | some d =>
    let start := d + 1
    let new_data := if start ≤ today then provider start today else []
    let requested := if start ≤ today then [(start, today)] else []
    let series :=
      if ¬ existing.isEmpty ∧ ¬ new_data.isEmpty then
        some ((dedupKeepLast (existing ++ new_data)).insertionSort barDateLe)
      else if ¬ existing.isEmpty then some existing
      else if ¬ new_data.isEmpty then some new_data
      else none
    { requests := requested, full_fetch := false, series := series }
  | none =>
    { requests := [], full_fetch := true,
      series := if full.isEmpty then none else some full }

/- ─────────── Persistent store (`database.py`) ─────────── -/

/-- A document of the timeseries collection for one ticker
(`MongoDBManager.save_stock_prices` builds these from the fetcher's
price dicts). -/
structure PriceDoc where
  date : ℕ
  open_ : ℚ
  high : ℚ
  low : ℚ
  close : ℚ
  volume : ℤ
deriving DecidableEq

/-- `MongoDBManager.save_stock_prices` for one ticker: gather the
dates already stored, drop every incoming bar whose date is among
them, and insert the rest. -/
def save_stock_prices (store : List PriceDoc) (prices : List PriceDoc) :
    List PriceDoc :=
  let existing_dates := store.map (·.date)
  let docs_to_insert := prices.filter (fun p => ¬ p.date ∈ existing_dates)
  store ++ docs_to_insert

/- ─────────── Daily Trigger (`scheduler.py`) ─────────── -/

/-- A wall-clock instant as seen by the scheduler: calendar day plus
time of day (the weekday is the day number mod 7, Monday = 0). -/
structure SchedTime where
  day : ℕ
  hour : ℕ
  minute : ℕ
deriving DecidableEq

/-- `DailyEODScheduler._is_weekday`. -/
def is_weekday (t : SchedTime) : Bool := t.day % 7 < 5

/-- `DailyEODScheduler._is_calculation_time`: weekday, 17:00 with a
one-minute grace window, and today differs from the last fired date. -/
def is_calculation_time (last_calc_date : Option ℕ) (now : SchedTime) : Bool :=
  if ¬ is_weekday now then false
  else if now.hour = 17 ∧ now.minute ≤ 1 then some now.day ≠ last_calc_date
  else false

/-- One poll tick of `DailyEODScheduler._run_loop`: when the trigger
window test passes, the calculator is invoked and its result decides
whether the fired date advances. -/
def scheduler_tick (last_calc_date : Option ℕ) (now : SchedTime)
    (calcResult : Option IndexSnapshot) : Option ℕ :=
  if is_calculation_time last_calc_date now then
    match calcResult with
    | some _ => some now.day
    | none => last_calc_date
  else last_calc_date

/- ─────────── Sample data for witnesses ─────────── -/

/-- A small engine state used to instantiate theorems with hypotheses. -/
def engineW : IndexEngine :=
  { constituents := [("A", { free_float_factor := some (1/2) })],
    base_value := 1000, base_date := 10, divisor := none,
    index_history := [], last_snapshot := none,
    stocks_info := [("A", 1000)], last_ff_mcap_sum := none }

example : round2 (5/2) = 5/2 := by decide
example : roundHalfEven (1/2) = 0 := by decide
example : roundHalfEven (3/2) = 2 := by decide
example : effectiveDivisor (some 0) 1000 0 = 1 := by decide
example : (calculate_eod_index
    { constituents := [("A", { free_float_factor := some 1 })],
      base_value := 1000, base_date := 0, divisor := some 100,
      index_history := [], last_snapshot := none,
      stocks_info := [("A", 1000)], last_ff_mcap_sum := none }
    [("A", { price := 100, change_percent := 0, volume := 0 })] 1).2.map
      (fun sn => sn.index.value) = some 1000 := by decide

/- ─────────── C3: abort atomicity ─────────── -/

/-- C3 — Abort atomicity on total data unavailability: when the quote
map is empty, or no constituent produced a usable price, the EOD cycle
returns the previous snapshot and the whole engine state (divisor,
ledger, last snapshot, last free-float-mcap sum) is unchanged. -/
theorem eod_abort_atomicity (s : IndexEngine) (prices : List (String × PriceQuote))
    (today : ℕ) (h : prices = [] ∨ eodConstituentRows s prices = []) :
    calculate_eod_index s prices today = (s, s.last_snapshot) := by
  rcases h with h | h
  · subst h
    rfl
  · unfold calculate_eod_index
    by_cases hp : prices.isEmpty
    · rw [if_pos hp]
    · rw [if_neg hp, if_pos (by rw [h]; rfl)]

/-- C3 witness: an engine facing an empty quote map, and another one
whose quotes cover no constituent, both abort without a state change. -/
theorem eod_abort_atomicity_witness :
    calculate_eod_index engineW [] 11 = (engineW, engineW.last_snapshot) ∧
    calculate_eod_index engineW
        [("ZZ", { price := 3, change_percent := 0, volume := 0 })] 11
      = (engineW, engineW.last_snapshot) :=
  ⟨eod_abort_atomicity engineW [] 11 (Or.inl rfl),
   eod_abort_atomicity engineW
     [("ZZ", { price := 3, change_percent := 0, volume := 0 })] 11 (Or.inr (by decide))⟩

/- ─────────── C5: synchronizer incrementality ─────────── -/

/-- C5 — Synchronizer incrementality: with last stored date `D`, the
only provider request is the range `[D+1, today]` (so no requested
range reaches back to `D` or earlier), and when `D+1 > today` no
request at all is made and the stored series is returned as loaded. -/
theorem fetch_incremental_only_new (D today : ℕ) (existing : List (ℕ × ℚ))
    (provider : ℕ → ℕ → List (ℕ × ℚ)) (full : List (ℕ × ℚ)) :
    (D + 1 ≤ today →
      (fetch_historical_incremental_ticker (some D) existing provider full today).requests
        = [(D + 1, today)]) ∧
    (∀ r ∈ (fetch_historical_incremental_ticker (some D) existing provider full
        today).requests, D + 1 ≤ r.1 ∧ r.2 = today) ∧
    ((fetch_historical_incremental_ticker (some D) existing provider full
        today).full_fetch = false) ∧
    (today < D + 1 →
      fetch_historical_incremental_ticker (some D) existing provider full today
        = { requests := [], full_fetch := false,
            series := if existing.isEmpty then none else some existing }) := by
  by_cases h : D + 1 ≤ today
  · refine ⟨fun _ => ?_, ?_, ?_, fun hlt => absurd h (Nat.not_le.mpr hlt)⟩
    · simp [fetch_historical_incremental_ticker, h]
    · intro r hr
      simp [fetch_historical_incremental_ticker, h] at hr
      simp [hr]
    · simp [fetch_historical_incremental_ticker, h]
  · refine ⟨fun hle => absurd hle h, ?_, ?_, fun _ => ?_⟩
    · intro r hr
      simp [fetch_historical_incremental_ticker, h] at hr
    · simp [fetch_historical_incremental_ticker, h]
    · rcases he : existing with _ | ⟨b, bs⟩ <;>
        simp [fetch_historical_incremental_ticker, h, he]

/-- C5 witness: last stored date 3 with provider data through 5 issues
exactly the request `[4, 5]`; last stored date 6 issues none and hands
back the stored bars. -/
theorem fetch_incremental_only_new_witness :
    (fetch_historical_incremental_ticker (some 3) [(1, (10:ℚ))]
        (fun a b => [(a, 7), (b, 8)]) [] 5).requests = [(4, 5)] ∧
    fetch_historical_incremental_ticker (some 6) [(1, (10:ℚ))]
        (fun a b => [(a, 7), (b, 8)]) [] 5
      = { requests := [], full_fetch := false, series := some [(1, 10)] } := by
  refine ⟨(fetch_incremental_only_new 3 5 [(1, (10:ℚ))]
      (fun a b => [(a, 7), (b, 8)]) []).1 (by decide), ?_⟩
  have h := (fetch_incremental_only_new 6 5 [(1, (10:ℚ))]
      (fun a b => [(a, 7), (b, 8)]) []).2.2.2 (by decide)
  simpa using h

/- ─────────── C6: synchronizer idempotence ─────────── -/

/-- C6 — Synchronizer idempotence: stored bars are kept untouched as a
prefix of the result, an incoming bar whose date is already stored is
never inserted, saving the same batch twice equals saving it once (so
the stored bar count is unchanged by the second run), and date
uniqueness per ticker is preserved. -/
theorem save_stock_prices_idempotent (store prices : List PriceDoc) :
    store <+: save_stock_prices store prices ∧
    (∀ p ∈ prices, p.date ∈ store.map (·.date) →
      ¬ p ∈ (save_stock_prices store prices).drop store.length) ∧
    save_stock_prices (save_stock_prices store prices) prices
      = save_stock_prices store prices ∧
    ((store.map (·.date)).Nodup → (prices.map (·.date)).Nodup →
      ((save_stock_prices store prices).map (·.date)).Nodup) := by
  refine ⟨⟨_, rfl⟩, ?_, ?_, ?_⟩
  · intro p hp hdate hmem
    rw [show (save_stock_prices store prices).drop store.length
          = prices.filter (fun p => ¬ p.date ∈ store.map (·.date)) from
        List.drop_left store _] at hmem
    have := List.of_mem_filter hmem
    simp only [decide_not, Bool.not_eq_true', decide_eq_false_iff_not] at this
    exact this hdate
  · unfold save_stock_prices
    rw [List.append_right_eq_self ]
    apply List.filter_eq_nil_iff.mpr
    intro p hp
    simp only [decide_not, Bool.not_eq_true', decide_eq_false_iff_not, Decidable.not_not,
      List.map_append, List.mem_append]
    by_cases hd : p.date ∈ store.map (·.date)
    · exact Or.inl hd
    · exact Or.inr (List.mem_map.mpr
        ⟨p, List.mem_filter.mpr ⟨hp, by simp [hd]⟩, rfl⟩)
  · intro hs hp
    unfold save_stock_prices
    rw [List.map_append, List.nodup_append]
    refine ⟨hs, ?_, ?_⟩
    · exact ((List.filter_sublist prices).map (·.date)).nodup hp
    · intro d hd1 hd2
      obtain ⟨p, hpmem, hpdate⟩ := List.mem_map.mp hd2
      have hpf := List.mem_filter.mp hpmem
      have hnot : ¬ p.date ∈ store.map (·.date) := by simpa using hpf.2
      exact hnot (by rw [hpdate]; exact hd1)

/-- Store and batch used to instantiate the idempotence theorem. -/
def storeW : List PriceDoc := [{ date := 1, open_ := 1, high := 1, low := 1, close := 1, volume := 5 }]

/-- A batch whose first bar collides with the stored date 1. -/
def pricesW : List PriceDoc :=
  [{ date := 1, open_ := 2, high := 2, low := 2, close := 2, volume := 9 },
   { date := 2, open_ := 3, high := 3, low := 3, close := 3, volume := 4 }]

/-- C6 witness: the colliding bar for date 1 is skipped (the stored
one survives as the prefix), a second identical save inserts nothing,
and dates stay unique. -/
theorem save_stock_prices_idempotent_witness :
    storeW <+: save_stock_prices storeW pricesW ∧
    ¬ { date := 1, open_ := 2, high := 2, low := 2, close := 2, volume := 9 }
        ∈ (save_stock_prices storeW pricesW).drop storeW.length ∧
    save_stock_prices (save_stock_prices storeW pricesW) pricesW
      = save_stock_prices storeW pricesW ∧
    ((save_stock_prices storeW pricesW).map (·.date)).Nodup := by
  obtain ⟨h1, h2, h3, h4⟩ := save_stock_prices_idempotent storeW pricesW
  exact ⟨h1, h2 _ (by decide) (by decide), h3, h4 (by decide) (by decide)⟩

/- ─────────── C7: trigger failure handling ─────────── -/

/-- C7 — Trigger failure handling: in the trigger window, a cycle in
which the calculator produced no snapshot leaves the last-fired date
untouched and the scheduler still eligible on any later tick of the
same day's window; the fired date moves only when a snapshot came
back, and then to today's date. -/
theorem scheduler_failure_retry (last : Option ℕ) (now tick : SchedTime)
    (h : is_calculation_time last now = true) :
    scheduler_tick last now none = last ∧
    (tick.day = now.day → tick.hour = 17 → tick.minute ≤ 1 →
      is_calculation_time (scheduler_tick last now none) tick = true) ∧
    (∀ r : Option IndexSnapshot, scheduler_tick last now r ≠ last →
      ∃ snap, r = some snap ∧ scheduler_tick last now r = some now.day) := by
  have h0 := h
  unfold is_calculation_time at h0
  by_cases hw : is_weekday now = true
  · rw [if_neg (by simp [hw])] at h0
    by_cases hm : now.hour = 17 ∧ now.minute ≤ 1
    · rw [if_pos hm] at h0
      have hne : some now.day ≠ last := by simpa using h0
      refine ⟨by simp [scheduler_tick, h], ?_, ?_⟩
      · intro hd hh hmin
        rw [show scheduler_tick last now none = last by simp [scheduler_tick, h]]
        unfold is_calculation_time
        have hw' : is_weekday tick = true := by
          unfold is_weekday at hw ⊢
          rw [hd]
          exact hw
        rw [if_neg (by simp [hw']), if_pos ⟨hh, hmin⟩]
        simpa [hd] using h0
      · intro r hr
        rcases r with _ | snap
        · exact absurd (by simp [scheduler_tick, h]) hr
        · exact ⟨snap, rfl, by simp [scheduler_tick, h]⟩
    · rw [if_neg hm] at h0
      exact absurd h0 (by simp)
  · rw [if_pos (by simpa using hw)] at h0
    exact absurd h0 (by simp)

/-- C7 witness: last fired on day 0, the window opens on day 1 at
17:00; a failed calculation keeps the fired date at day 0 and the
17:01 tick of the same day is still eligible, while a successful one
moves the fired date to day 1. -/
theorem scheduler_failure_retry_witness :
    scheduler_tick (some 0) ⟨1, 17, 0⟩ none = some 0 ∧
    is_calculation_time (scheduler_tick (some 0) ⟨1, 17, 0⟩ none) ⟨1, 17, 1⟩ = true := by
  obtain ⟨h1, h2, _⟩ :=
    scheduler_failure_retry (some 0) ⟨1, 17, 0⟩ ⟨1, 17, 1⟩ (by decide)
  exact ⟨h1, h2 rfl rfl (by decide)⟩

/- ─────────── C1: base calibration ─────────── -/

/-- `a / (a / b) = b` when `a ≠ 0` (also for `b = 0`, since `ℚ`
division by zero yields zero on both sides). -/
lemma div_div_self_cancel (a b : ℚ) (ha : a ≠ 0) : a / (a / b) = b := by
  by_cases hb : b = 0
  · subst hb
    simp
  · field_simp

/-- C1 (amended) — Base calibration: whenever the base-date free-float
market-cap sum is positive (and the configured base value is
positive), the computed divisor is exactly that sum divided by the
base value, and dividing the same sum by the divisor gives back the
base value exactly. -/
theorem base_divisor_calibration (s : IndexEngine)
    (historical : List (String × List (ℕ × ℚ)))
    (_hbv : 0 < s.base_value) (hsum : 0 < baseFfMcapSum s historical) :
    (calculate_base_divisor s historical).divisor
      = some (baseFfMcapSum s historical / s.base_value) ∧
    baseFfMcapSum s historical / (baseFfMcapSum s historical / s.base_value)
      = s.base_value := by
  refine ⟨by simp [calculate_base_divisor, hsum], ?_⟩
  exact div_div_self_cancel _ _ (ne_of_gt hsum)

/-- A constituent set with a valid positive base-date price but a zero
free-float factor: the base sum degenerates to zero. -/
def engineC1 : IndexEngine :=
  { constituents := [("A", { free_float_factor := some 0 })],
    base_value := 1000, base_date := 10, divisor := none,
    index_history := [], last_snapshot := none,
    stocks_info := [("A", 1000)], last_ff_mcap_sum := none }

/-- The lone constituent has a close of 100 on the base date itself. -/
def histC1 : List (String × List (ℕ × ℚ)) := [("A", [(10, 100)])]

/-- C1 counterexample: `engineC1` has a valid (positive) price on the
base date, yet the computed divisor is the 1.0 fallback rather than
sum / baseValue, and the base-date index value is 0, not 1000. -/
theorem base_divisor_calibration_cex :
    hasPositiveBasePrice engineC1 histC1 = true ∧
    (calculate_base_divisor engineC1 histC1).divisor
      ≠ some (baseFfMcapSum engineC1 histC1 / engineC1.base_value) ∧
    baseFfMcapSum engineC1 histC1
        / ((calculate_base_divisor engineC1 histC1).divisor.getD 1)
      ≠ engineC1.base_value := by decide

/-- `engineW` with its constituent priced 100 two days before the base
date (exercising the last-price-on-or-before fallback). -/
def histC1w : List (String × List (ℕ × ℚ)) := [("A", [(8, 100)])]

/-- C1 witness: for `engineW` the base sum is 100 × 1000 × 0.5 =
50,000 > 0, the divisor becomes 50,000 / 1000 = 50, and the base-date
index value is exactly 1000. -/
theorem base_divisor_calibration_witness :
    (calculate_base_divisor engineW histC1w).divisor
      = some (baseFfMcapSum engineW histC1w / engineW.base_value) ∧
    baseFfMcapSum engineW histC1w / (baseFfMcapSum engineW histC1w / engineW.base_value)
      = engineW.base_value :=
  base_divisor_calibration engineW histC1w (by decide) (by decide)

/- ─────────── C2: divisor continuity ─────────── -/

/-- C2 (amended) — Divisor continuity: with a set divisor and
`before > 0`, the adjustment multiplies the divisor by
`after / before`; when additionally `after > 0`, recomputing the index
value (as the EOD division does, including its defensive
re-initialization) from sum `after` under the new divisor gives the
same level as sum `before` under the old one; with an unset divisor or
`before = 0` the operation is a no-op. -/
theorem adjust_divisor_continuity (s : IndexEngine) (before after d : ℚ)
    (hd : s.divisor = some d) (hb : 0 < before) :
    (adjust_divisor_for_constituent_change s before after).divisor
      = some (d * (after / before)) ∧
    (0 < after →
      recomputedIndexValue (adjust_divisor_for_constituent_change s before after) after
        = recomputedIndexValue s before) ∧
    (∀ (s' : IndexEngine) (b a : ℚ), s'.divisor = none ∨ b = 0 →
      adjust_divisor_for_constituent_change s' b a = s') := by
  have hbne : before ≠ 0 := ne_of_gt hb
  have hstep : adjust_divisor_for_constituent_change s before after
      = { s with divisor := some (d * (after / before)) } := by
    simp [adjust_divisor_for_constituent_change, hd, hbne]
  refine ⟨by rw [hstep], ?_, ?_⟩
  · intro ha
    have hane : after ≠ 0 := ne_of_gt ha
    rw [hstep]
    show after / effectiveDivisor (some (d * (after / before))) s.base_value after
       = before / effectiveDivisor s.divisor s.base_value before
    rw [hd, effectiveDivisor_some, effectiveDivisor_some]
    by_cases hdz : d = 0
    · subst hdz
      rw [zero_mul, if_pos rfl, if_pos rfl, if_pos ha, if_pos hb]
      by_cases hbv : s.base_value = 0
      · rw [hbv]
        simp
      · rw [div_div_self_cancel _ _ hane, div_div_self_cancel _ _ hbne]
    · have hne : d * (after / before) ≠ 0 :=
        mul_ne_zero hdz (div_ne_zero hane hbne)
      rw [if_neg hne, if_neg hdz]
      field_simp
      ring
  · intro s' b a h
    rcases hds : s'.divisor with _ | d'
    · simp [adjust_divisor_for_constituent_change, hds]
    · rcases h with h | h
      · rw [hds] at h
        cases h
      · subst h
        simp [adjust_divisor_for_constituent_change, hds]

/-- An engine with divisor 2 whose constituent set is about to be
emptied (after-sum 0). -/
def engineC2 : IndexEngine :=
  { constituents := [], base_value := 1000, base_date := 0,
    divisor := some 2, index_history := [], last_snapshot := none,
    stocks_info := [], last_ff_mcap_sum := some 1 }

/-- C2 counterexample: `before = 1 > 0`, `after = 0`.  The adjustment
zeroes the divisor, the recomputation falls back to the defensive 1.0
divisor and yields index 0, while the pre-change level was 1/2 — the
index level is not preserved, refuting the claim as stated for this
`(before, after)` pair. -/
theorem adjust_divisor_continuity_cex :
    0 < (1:ℚ) ∧
    recomputedIndexValue (adjust_divisor_for_constituent_change engineC2 1 0) 0
      ≠ recomputedIndexValue engineC2 1 := by decide

/-- C2 witness: divisor 2, sums 4 → 8: the divisor becomes
2 × (8/4) = 4 and the recomputed level 8/4 = 2 equals the old level
4/2 = 2; and a zero before-sum is a no-op. -/
theorem adjust_divisor_continuity_witness :
    (adjust_divisor_for_constituent_change engineC2 4 8).divisor
      = some (2 * ((8:ℚ) / 4)) ∧
    recomputedIndexValue (adjust_divisor_for_constituent_change engineC2 4 8) 8
      = recomputedIndexValue engineC2 4 ∧
    adjust_divisor_for_constituent_change engineC2 0 5 = engineC2 := by
  obtain ⟨h1, h2, h3⟩ := adjust_divisor_continuity engineC2 4 8 2 rfl (by decide)
  exact ⟨h1, h2 (by decide), h3 engineC2 0 5 (Or.inr rfl)⟩

/- ─────────── C8: registry reload and the divisor ─────────── -/

/-- A one-constituent engine in steady state: divisor 100, index level
100,000 / 100 = 1000. -/
def engineC8 : IndexEngine :=
  { constituents := [("A", { free_float_factor := some 1 })],
    base_value := 1000, base_date := 0, divisor := some 100,
    index_history := [], last_snapshot := none,
    stocks_info := [("A", 1000), ("B", 1000)], last_ff_mcap_sum := some 100000 }

/-- A reloaded config that adds constituent "B". -/
def configC8 : EngineConfig :=
  { constituents := [("A", { free_float_factor := some 1 }),
                     ("B", { free_float_factor := some 1 })] }

/-- Unchanged market prices for both tickers. -/
def pricesC8 : List (String × PriceQuote) :=
  [("A", { price := 100, change_percent := 0, volume := 0 }),
   ("B", { price := 100, change_percent := 0, volume := 0 })]

/-- C8 — `reload_config` never touches the divisor (no call to
`adjust_divisor_for_constituent_change` exists anywhere in the code),
so after adding ticker "B" under unchanged prices the next EOD leaps
from 1000 to 2000, while the (never invoked) adjustment would have
rescaled the divisor to 200 and preserved the 1000 level exactly. -/
theorem reload_config_skips_divisor_adjustment :
    (∀ (s : IndexEngine) (c : EngineConfig), (reload_config s c).divisor = s.divisor) ∧
    (calculate_eod_index engineC8 pricesC8 1).2.map (fun sn => sn.index.value)
      = some 1000 ∧
    (calculate_eod_index (reload_config engineC8 configC8) pricesC8 1).2.map
        (fun sn => sn.index.value) = some 2000 ∧
    recomputedIndexValue
        (adjust_divisor_for_constituent_change (reload_config engineC8 configC8)
          100000 200000) 200000
      = recomputedIndexValue engineC8 100000 :=
  ⟨fun _ _ => rfl, by decide, by decide, by decide⟩

/- ─────────── C9: EOD totality ─────────── -/

/-- An EOD cycle either aborts altogether (returning the held
snapshot, state untouched) or publishes a fresh snapshot and holds it. -/
lemma eod_result_cases (s : IndexEngine) (prices : List (String × PriceQuote))
    (today : ℕ) :
    calculate_eod_index s prices today = (s, s.last_snapshot) ∨
    ∃ snap, (calculate_eod_index s prices today).2 = some snap ∧
      (calculate_eod_index s prices today).1.last_snapshot = some snap := by
  unfold calculate_eod_index
  by_cases h1 : prices.isEmpty
  · rw [if_pos h1]
    exact Or.inl rfl
  · rw [if_neg h1]
    by_cases h2 : (eodConstituentRows s prices).isEmpty
    · rw [if_pos h2]
      exact Or.inl rfl
    · rw [if_neg h2]
      exact Or.inr ⟨_, rfl, rfl⟩

/-- C9 — EOD totality: the guarded EOD run always returns; a raised
fetch error returns the pre-call `last_snapshot` with the state
untouched; the return value is `None` only when no calculation has
ever succeeded (i.e. `last_snapshot` was still `None`); and once a
snapshot exists, a failed cycle is indistinguishable from a successful
one by the return value alone — both return `some` snapshot. -/
theorem eod_run_total (s : IndexEngine)
    (fetch : Except Unit (List (String × PriceQuote))) (today : ℕ) :
    (∀ e, fetch = .error e → calculate_eod_run s fetch today = (s, s.last_snapshot)) ∧
    ((calculate_eod_run s fetch today).2 = none → s.last_snapshot = none) ∧
    (∀ snap, s.last_snapshot = some snap →
      ∃ r, (calculate_eod_run s fetch today).2 = some r) ∧
    ((calculate_eod_run s fetch today).1.last_snapshot = none →
      s.last_snapshot = none) := by
  rcases fetch with e | prices
  · refine ⟨fun _ _ => rfl, fun h => h, ?_, fun h => h⟩
    intro snap hs
    exact ⟨snap, hs⟩
  · have hrun : calculate_eod_run s (.ok prices) today
        = calculate_eod_index s prices today := rfl
    rcases eod_result_cases s prices today with hc | ⟨snap, hsnap, hstate⟩
    · rw [hrun, hc]
      exact ⟨fun e he => Except.noConfusion he, fun h => h,
        fun snap hs => ⟨snap, hs⟩, fun h => h⟩
    · rw [hrun]
      refine ⟨fun e he => Except.noConfusion he, ?_, ?_, ?_⟩
      · intro h
        rw [hsnap] at h
        cases h
      · intro snap' _
        exact ⟨snap, hsnap⟩
      · intro h
        rw [hstate] at h
        cases h

/-- A tiny previously published snapshot. -/
def snapC9 : IndexSnapshot :=
  { index := { value := 1, change := 0, change_percent := 0, high := 1, low := 1,
               open_ := 1, previous_close := 1, total_market_cap := 0,
               total_free_float_market_cap := 0 },
    constituents := [] }

/-- `engineW` after one successful publication of `snapC9`. -/
def engineC9 : IndexEngine := { engineW with last_snapshot := some snapC9 }

/-- C9 witness: a raised fetch error on `engineC9` returns the held
snapshot with the state untouched, and the return value is a `some` —
not distinguishable from success. -/
theorem eod_run_total_witness :
    calculate_eod_run engineC9 (.error ()) 12 = (engineC9, engineC9.last_snapshot) ∧
    ∃ r, (calculate_eod_run engineC9 (.error ()) 12).2 = some r := by
  obtain ⟨h1, _, h3, _⟩ := eod_run_total engineC9 (.error ()) 12
  exact ⟨h1 () rfl, h3 snapC9 rfl⟩

/- ─────────── C10: division guard ─────────── -/

/-- C10 — Division guard: with a positive configured base value, the
divisor standing at the EOD division site is never zero (whatever the
stored divisor was, including `None` and 0, and whatever the free-float
sum); base calibration likewise always produces a nonzero divisor,
falling back to exactly 1.0 when the base sum is not positive; and on
a non-aborting EOD cycle the persisted divisor is exactly the
effective one used in the division. -/
theorem eod_division_guard (dv : Option ℚ) (bv total : ℚ) (s : IndexEngine)
    (historical : List (String × List (ℕ × ℚ)))
    (hbv : 0 < bv) (hsbv : 0 < s.base_value) :
    effectiveDivisor dv bv total ≠ 0 ∧
    (∃ d, (calculate_base_divisor s historical).divisor = some d ∧ d ≠ 0) ∧
    (baseFfMcapSum s historical ≤ 0 →
      (calculate_base_divisor s historical).divisor = some 1) ∧
    (∀ prices today, prices.isEmpty = false →
      (eodConstituentRows s prices).isEmpty = false →
      (calculate_eod_index s prices today).1.divisor
        = some (effectiveDivisor s.divisor s.base_value (eodTotalFfMcap s prices))) := by
  have hre : ∀ t : ℚ, (if 0 < t then t / bv else 1) ≠ 0 := by
    intro t
    by_cases ht : 0 < t
    · rw [if_pos ht]
      exact ne_of_gt (div_pos ht hbv)
    · rw [if_neg ht]
      exact one_ne_zero
  refine ⟨?_, ?_, ?_, ?_⟩
  · rcases dv with _ | d
    · exact hre total
    · by_cases hd : d = 0
      · rw [show effectiveDivisor (some d) bv total
              = if d = 0 then (if 0 < total then total / bv else 1) else d from rfl,
          if_pos hd]
        exact hre total
      · rw [show effectiveDivisor (some d) bv total
              = if d = 0 then (if 0 < total then total / bv else 1) else d from rfl,
          if_neg hd]
        exact hd
  · by_cases hs : 0 < baseFfMcapSum s historical
    · exact ⟨_, by simp [calculate_base_divisor, hs], ne_of_gt (div_pos hs hsbv)⟩
    · exact ⟨1, by simp [calculate_base_divisor, hs], one_ne_zero⟩
  · intro hle
    simp [calculate_base_divisor, not_lt.mpr hle]
  · intro prices today h1 h2
    unfold calculate_eod_index
    rw [if_neg (by simp [h1]), if_neg (by simp [h2])]
    rfl

/-- A quote for the single constituent of `engineC1`. -/
def pricesC10 : List (String × PriceQuote) :=
  [("A", { price := 20, change_percent := 0, volume := 0 })]

/-- C10 witness: the effective divisor is nonzero at concrete division
sites — with a zeroed stored divisor and a non-positive sum it falls
back to 1; base calibration on a zero-sum state yields exactly 1; and
a concrete non-aborting EOD run on `engineC1` persists the effective
divisor. -/
theorem eod_division_guard_witness :
    effectiveDivisor (some 0) 1000 (-5) ≠ 0 ∧
    (∃ d, (calculate_base_divisor engineC1 histC1).divisor = some d ∧ d ≠ 0) ∧
    (calculate_base_divisor engineC1 histC1).divisor = some 1 ∧
    (calculate_eod_index engineC1 pricesC10 11).1.divisor
      = some (effectiveDivisor engineC1.divisor engineC1.base_value
          (eodTotalFfMcap engineC1 pricesC10)) := by
  obtain ⟨h1, h2, h3, h4⟩ :=
    eod_division_guard (some 0) 1000 (-5) engineC1 histC1 (by decide) (by decide)
  exact ⟨h1, h2, h3 (by decide), h4 pricesC10 11 (by decide) (by decide)⟩

/- ─────────── C4: ledger invariant ─────────── -/

/-- Replacing an entry by one carrying the same date leaves the list
of dates unchanged. -/
lemma setFirstByDate_map_date (d : ℕ) (e : HistoryEntry) (he : e.date = d)
    (l : List HistoryEntry) :
    (setFirstByDate d e l).map (·.date) = l.map (·.date) := by
  induction l with
  | nil => rfl
  | cons h t ih =>
    by_cases hh : h.date = d
    · simp [setFirstByDate, hh, he]
    · simp [setFirstByDate, hh, ih]

/-- The same-day overwrite leaves the list of ledger dates unchanged. -/
lemma overwriteLastByDate_map_date (l : List HistoryEntry) (d : ℕ) (e : HistoryEntry)
    (he : e.date = d) :
    (overwriteLastByDate l d e).map (·.date) = l.map (·.date) := by
  unfold overwriteLastByDate
  rw [List.map_reverse, setFirstByDate_map_date d e he, ← List.map_reverse,
    List.reverse_reverse]

/-- One EOD step preserves the ledger invariant, re-indexed at the
day of the call. -/
lemma eod_preserves_ledger (c today : ℕ) (s : IndexEngine)
    (prices : List (String × PriceQuote))
    (hinv : ledgerOk c s.index_history) (hc : c ≤ today) :
    ledgerOk today ((calculate_eod_index s prices today).1).index_history := by
  have htriv : ledgerOk today s.index_history :=
    ⟨hinv.1, fun e he => le_trans (hinv.2 e he) hc⟩
  unfold calculate_eod_index
  by_cases h1 : prices.isEmpty
  · rw [if_pos h1]
    exact htriv
  · rw [if_neg h1]
    by_cases h2 : (eodConstituentRows s prices).isEmpty
    · rw [if_pos h2]
      exact htriv
    · rw [if_neg h2]
      show ledgerOk today (eodNewHistory s prices today)
      unfold eodNewHistory
      by_cases h3 : s.index_history.any (fun h => h.date = today)
      · rw [if_pos h3]
        have hmap : (overwriteLastByDate s.index_history today
              (eodEntry s prices today)).map (·.date)
            = s.index_history.map (·.date) :=
          overwriteLastByDate_map_date _ _ _ rfl
        constructor
        · have hp : (s.index_history.map (·.date)).Pairwise (· < ·) :=
            (List.pairwise_map).mpr hinv.1
          have hp2 := hmap ▸ hp
          exact (List.pairwise_map).mp hp2
        · intro e he
          have hmem : e.date ∈ (overwriteLastByDate s.index_history today
              (eodEntry s prices today)).map (·.date) := List.mem_map_of_mem _ he
          rw [hmap] at hmem
          obtain ⟨e0, he0, hd0⟩ := List.mem_map.mp hmem
          rw [← hd0]
          exact le_trans (hinv.2 e0 he0) hc
      · rw [if_neg h3]
        have hnot : ∀ e ∈ s.index_history, e.date ≠ today := by
          intro e he hcon
          exact h3 (List.any_eq_true.mpr ⟨e, he, by simp [hcon]⟩)
        constructor
        · apply List.pairwise_append.mpr
          refine ⟨hinv.1, List.pairwise_singleton _ _, ?_⟩
          intro a ha b hb
          have hb' : b = eodEntry s prices today := by simpa using hb
          subst hb'
          exact lt_of_le_of_ne (le_trans (hinv.2 a ha) hc) (hnot a ha)
        · intro e he
          rcases List.mem_append.mp he with he | he
          · exact le_trans (hinv.2 e he) hc
          · have he' : e = eodEntry s prices today := by simpa using he
            subst he'
            exact le_refl today

/-- The dates of the entries the date loop produces form a sublist of
the dates it was given. -/
lemma backfillEntries_dates_sublist (s : IndexEngine)
    (historical : List (String × List (ℕ × ℚ))) :
    ∀ (dates : List ℕ) (div selfDiv : Option ℚ) (prev : ℚ),
      ((backfillEntries s historical dates div selfDiv prev).1.map (·.date)).Sublist
        dates := by
  intro dates
  induction dates with
  | nil => intro _ _ _; simp [backfillEntries]
  | cons dt rest ih =>
    intro div selfDiv prev
    unfold backfillEntries
    by_cases h : (backfillTotals s historical dt).2.2 = 0
    · rw [if_pos h]
      exact (ih div selfDiv prev).cons dt
    · rw [if_neg h]
      simp only [List.map_cons]
      exact (ih _ _ _).cons₂ dt

/-- Every date the backfill considers comes from the provider's bars,
hence is bounded by the day of the call when the provider is. -/
lemma backfillAllDates_le (s : IndexEngine)
    (historical : List (String × List (ℕ × ℚ))) (today : ℕ)
    (hdates : historical.all (fun p => p.2.all (fun b => b.1 ≤ today)) = true) :
    ∀ d ∈ backfillAllDates s historical, d ≤ today := by
  intro d hd
  have h1 := (List.mem_filter.mp hd).1
  have h2 := ((List.perm_insertionSort (· ≤ ·) _).mem_iff).mp h1
  have h3 := List.mem_dedup.mp h2
  obtain ⟨l, hl, hdl⟩ := List.mem_flatten.mp h3
  obtain ⟨p, hp, rfl⟩ := List.mem_map.mp hl
  obtain ⟨bar, hbar, hb1⟩ := List.mem_map.mp hdl
  have hp2 := List.all_eq_true.mp hdates p hp
  have hbar2 := List.all_eq_true.mp hp2 bar hbar
  rw [← hb1]
  simpa using hbar2

/-- The dates the loop runs over are pairwise distinct. -/
lemma backfillLoopDates_nodup (s : IndexEngine)
    (historical : List (String × List (ℕ × ℚ))) :
    (backfillLoopDates s historical).Nodup := by
  have hall : (backfillAllDates s historical).Nodup := by
    apply List.Nodup.filter
    exact ((List.perm_insertionSort (· ≤ ·) _).nodup_iff).mpr (List.nodup_dedup _)
  unfold backfillLoopDates
  by_cases h : s.index_history.isEmpty
  · rw [if_pos h]
    exact hall
  · rw [if_neg h]
    exact List.Nodup.filter _ hall

/-- One backfill step preserves the ledger invariant, re-indexed at
the day of the call, provided the provider returned no future bars. -/
lemma backfill_preserves_ledger (c today : ℕ) (s : IndexEngine)
    (historical : List (String × List (ℕ × ℚ)))
    (hinv : ledgerOk c s.index_history) (hc : c ≤ today)
    (hdates : historical.all (fun p => p.2.all (fun b => b.1 ≤ today)) = true) :
    ledgerOk today (build_historical_index s historical today).index_history := by
  have htriv : ledgerOk today s.index_history :=
    ⟨hinv.1, fun e he => le_trans (hinv.2 e he) hc⟩
  unfold build_historical_index
  by_cases h0 : historyUpToDate s today = true
  · rw [if_pos h0]
    exact htriv
  · rw [if_neg h0]
    by_cases h1 : historical.isEmpty
    · rw [if_pos h1]
      exact htriv
    · rw [if_neg h1]
      by_cases h2 : (backfillAllDates s historical).isEmpty
      · rw [if_pos h2]
        exact htriv
      · rw [if_neg h2]
        by_cases h3 : (backfillNewDates s historical).isEmpty ∧ ¬ s.index_history.isEmpty
        · rw [if_pos h3]
          exact htriv
        · rw [if_neg h3]
          by_cases h4 : (backfillRun s historical).1.isEmpty
          · rw [if_pos h4]
            exact htriv
          · rw [if_neg h4]
            show ledgerOk today (backfillResultLedger s historical)
            have hperm : List.Perm (backfillResultLedger s historical)
                (s.index_history ++ (backfillRun s historical).1) :=
              List.perm_insertionSort entryDateLe _
            have hsub : ((backfillRun s historical).1.map (·.date)).Sublist
                (backfillLoopDates s historical) :=
              backfillEntries_dates_sublist s historical _ _ _ _
            have hloopsub : ∀ d ∈ backfillLoopDates s historical,
                d ∈ backfillAllDates s historical := by
              intro d hd
              unfold backfillLoopDates at hd
              by_cases h : s.index_history.isEmpty
              · rw [if_pos h] at hd
                exact hd
              · rw [if_neg h] at hd
                exact (List.mem_filter.mp hd).1
            have hnewle : ∀ d ∈ (backfillRun s historical).1.map (·.date), d ≤ today :=
              fun d hd => backfillAllDates_le s historical today hdates d
                (hloopsub d (hsub.subset hd))
            have holddates : (s.index_history.map (·.date)).Pairwise (· < ·) :=
              (List.pairwise_map).mpr hinv.1
            have holdnodup : (s.index_history.map (·.date)).Nodup :=
              holddates.imp (fun h => Nat.ne_of_lt h)
            have hnewnodup : ((backfillRun s historical).1.map (·.date)).Nodup :=
              hsub.nodup (backfillLoopDates_nodup s historical)
            have hdisj : ∀ d ∈ s.index_history.map (·.date),
                ¬ d ∈ (backfillRun s historical).1.map (·.date) := by
              intro d hdold hdnew
              have hloop := hsub.subset hdnew
              unfold backfillLoopDates at hloop
              by_cases h : s.index_history.isEmpty
              · rw [List.isEmpty_iff] at h
                rw [h] at hdold
                exact (List.not_mem_nil d) hdold
              · rw [if_neg h] at hloop
                have := (List.mem_filter.mp hloop).2
                simp only [decide_not, Bool.not_eq_true', decide_eq_false_iff_not] at this
                exact this hdold
            have hcombined : ((s.index_history ++ (backfillRun s historical).1).map
                (·.date)).Nodup := by
              rw [List.map_append]
              exact List.nodup_append.mpr ⟨holdnodup, hnewnodup, hdisj⟩
            have hsortnodup : ((backfillResultLedger s historical).map (·.date)).Nodup :=
              ((hperm.map (·.date)).nodup_iff).mpr hcombined
            constructor
            · have hsorted : (backfillResultLedger s historical).Pairwise entryDateLe :=
                List.sorted_insertionSort entryDateLe _
              have hne : (backfillResultLedger s historical).Pairwise
                  (fun a b => a.date ≠ b.date) := (List.pairwise_map).mp hsortnodup
              exact (hsorted.and hne).imp
                (fun hab => lt_of_le_of_ne hab.1 hab.2)
            · intro e he
              rcases List.mem_append.mp (hperm.subset he) with he0 | he0
              · exact le_trans (hinv.2 e he0) hc
              · exact hnewle e.date (List.mem_map_of_mem _ he0)

/-- Any serialized sequence of EOD and backfill operations run under a
forward-moving clock preserves the ledger invariant. -/
lemma runOps_ledger (ops : List EngineOp) : ∀ (c : ℕ) (s : IndexEngine),
    ledgerOk c s.index_history → clockOk c ops = true →
    ∃ c', ledgerOk c' (runOps s ops).index_history := by
  induction ops with
  | nil => exact fun c s h _ => ⟨c, h⟩
  | cons op rest ih =>
    intro c s h hck
    simp only [clockOk, Bool.and_eq_true, decide_eq_true_eq] at hck
    obtain ⟨⟨hcle, hd⟩, hrest⟩ := hck
    have hstep : ledgerOk op.day (applyOp s op).index_history := by
      cases op with
      | eod prices today => exact eod_preserves_ledger c today s prices h hcle
      | backfill historical today =>
        exact backfill_preserves_ledger c today s historical h hcle hd
    exact ih op.day (applyOp s op) hstep hrest

/-- C4 — Ledger invariant: a ledger that starts strictly sorted by
date with all entries dated no later than the clock stays, after any
clock-monotone sequence of EOD calculations (same-day recalculations
included) and historical backfills, free of duplicate dates and
strictly ascending by date. -/
theorem ledger_invariant (c : ℕ) (s : IndexEngine) (ops : List EngineOp)
    (hpair : s.index_history.Pairwise (fun a b => a.date < b.date))
    (hbound : ∀ e ∈ s.index_history, e.date ≤ c)
    (hops : clockOk c ops = true) :
    ((runOps s ops).index_history.map (·.date)).Nodup ∧
    (runOps s ops).index_history.Pairwise (fun a b => a.date < b.date) := by
  obtain ⟨c', h⟩ := runOps_ledger ops c s ⟨hpair, hbound⟩ hops
  refine ⟨?_, h.1⟩
  exact ((List.pairwise_map).mpr h.1).imp (fun h => Nat.ne_of_lt h)

/-- An operation schedule touching days 11 (twice — a same-day
recalculation), 12 (a backfill) and 13. -/
def opsW : List EngineOp :=
  [EngineOp.eod pricesC10 11, EngineOp.eod pricesC10 11,
   EngineOp.backfill histC1w 12, EngineOp.eod pricesC10 13]

/-- C4 witness: running the schedule from an empty ledger yields a
ledger with pairwise-distinct, strictly ascending dates. -/
theorem ledger_invariant_witness :
    ((runOps engineW opsW).index_history.map (·.date)).Nodup ∧
    (runOps engineW opsW).index_history.Pairwise (fun a b => a.date < b.date) :=
  ledger_invariant 0 engineW opsW List.Pairwise.nil
    (fun e he => absurd he (List.not_mem_nil e)) (by decide)
